import Mathlib

/-!
Shallow embedding of the TSIM thermal-sensor pipeline
(src/examples/rust/implementation/src/lib.rs) and verification of its
specified properties.

Machine integers are embedded as `Int`/`Nat`. Rust's `as i16` cast is
`wrapI16`; Rust's truncating `i32` division is `Int.tdiv`. The filter's
array indexing is guarded: `Filter.update` returns `none` when the write
index would be out of bounds (a Rust panic), and the invariants below
show this never happens from a fresh filter.
-/

namespace TSIM

/-- Rust's wrapping cast `x as i16` on an `i32` value. -/
def wrapI16 (x : Int) : Int := (x + 32768) % 65536 - 32768

/-- REQ_FUNC_001: ADC (12-bit) to temperature conversion, in tenths of a
degree. Mirrors `adc_to_temp_x10`: clamp the input to 4095, scale by
1650/4095 with round-half-up, offset by -400, clamp to [-400, 1250], and
cast the `i32` back to `i16`. -/
def adc_to_temp_x10 (adc_counts : Nat) : Int :=
  let adc : Nat := min adc_counts 4095
  let numerator : Int := (adc : Int) * 1650
  let scaled : Int := (numerator + 2047).tdiv 4095
  let temp0 : Int := -400 + scaled
  let temp1 : Int := if temp0 < -400 then -400 else temp0
  let temp2 : Int := if temp1 > 1250 then 1250 else temp1
  wrapI16 temp2

/-- The two-variant safety classification. -/
inductive State where
  | Safe : State
  | Unsafe : State
deriving DecidableEq, Repr

/-- REQ_FUNC_003/004: threshold + hysteresis state machine. -/
structure StateMachine where
  high_x10 : Int
  low_x10 : Int
  state : State
deriving DecidableEq, Repr

def StateMachine.new (high_x10 low_x10 : Int) : StateMachine :=
  { high_x10 := high_x10, low_x10 := low_x10, state := State.Safe }

/-- `evaluate` mutates the state per the transition rules and returns the
post-transition state; modelled as (returned state, updated machine). -/
def StateMachine.evaluate (m : StateMachine) (filtered_temp_x10 : Int) : State × StateMachine :=
  let m' :=
    match m.state with
    | State.Safe =>
        if m.high_x10 ≤ filtered_temp_x10 then { m with state := State.Unsafe } else m
    | State.Unsafe =>
        if filtered_temp_x10 ≤ m.low_x10 then { m with state := State.Safe } else m
  (m'.state, m')

/-- `n` successive `evaluate` calls with the same temperature. -/
def evalN (m : StateMachine) (t : Int) : Nat → StateMachine
  | 0 => m
  | n + 1 => evalN ((m.evaluate t).2) t n

/-- REQ_FUNC_002: the 5-sample moving-average filter state. -/
structure Filter where
  window : Fin 5 → Int
  count : Nat
  index : Nat
  sum : Int

def Filter.new : Filter :=
  { window := fun _ => 0, count := 0, index := 0, sum := 0 }

/-- One `update` call. The outer guard models the bounds check of
`self.window[self.index]`: `none` is a Rust panic. The value returned to
the caller is `(self.sum / 5) as TempX10`, i.e. a truncating division
followed by a wrapping cast to `i16`. -/
def Filter.update (f : Filter) (sample : Int) : Option (Option Int × Filter) :=
  if hlt : f.index < 5 then
    if f.count < 5 then
      some ( none,
        { window := Function.update f.window ⟨f.index, hlt⟩ sample
          count := f.count + 1
          index := (f.index + 1) % 5
          sum := f.sum + sample })
    else
      let old := f.window ⟨f.index, hlt⟩
      let newSum := f.sum - old + sample
      some ( some (wrapI16 (newSum.tdiv 5)),
        { window := Function.update f.window ⟨f.index, hlt⟩ sample
          count := f.count
          index := (f.index + 1) % 5
          sum := newSum })
  else none

/-- Feed a list of samples through the filter, collecting each call's
optional output; `none` if any call panics. -/
def Filter.feed (f : Filter) : List Int → Option (Filter × List (Option Int))
  | [] => some (f, [])
  | s :: rest =>
    match f.update s with
    | none => none
    | some (out, f') =>
      match f'.feed rest with
      | none => none
      | some (fEnd, outs) => some (fEnd, out :: outs)

/-- Feed a list of temperatures directly into the state machine. -/
def runSM (m : StateMachine) (ts : List Int) : StateMachine :=
  ts.foldl (fun acc t => (acc.evaluate t).2) m

/-- The interleaved pipeline: each sample goes through the filter, and the
state machine is evaluated exactly when the filter produces an output. -/
def pipeline (m : StateMachine) (f : Filter) : List Int → Option StateMachine
  | [] => some m
  | t :: rest =>
    match f.update t with
    | none => none
    | some (out, f') =>
      match out with
      | none => pipeline m f' rest
      | some v => pipeline ((m.evaluate v).2) f' rest

/-- `wrapI16` is the identity on the `i16` range. -/
lemma wrapI16_eq_self (v : Int) (h1 : -32768 ≤ v) (h2 : v ≤ 32767) : wrapI16 v = v := by
  unfold wrapI16
  omega

/-- The conversion, rewritten as an unclamped formula under max/min. -/
lemma adc_clamp_eq (a : Nat) :
    adc_to_temp_x10 a
      = max (-400) (min 1250 (-400 + (((min a 4095 : Nat) : Int) * 1650 + 2047).tdiv 4095)) := by
  have hle : ((min a 4095 : Nat) : Int) ≤ 4095 := by
    have h := min_le_right a 4095
    omega
  have hs0 : 0 ≤ (((min a 4095 : Nat) : Int) * 1650 + 2047).tdiv 4095 :=
    Int.tdiv_nonneg (by omega) (by norm_num)
  have hs1 : (((min a 4095 : Nat) : Int) * 1650 + 2047).tdiv 4095 ≤ 1650 := by
    rw [Int.tdiv_eq_ediv (by omega) (by norm_num)]
    omega
  simp only [adc_to_temp_x10, wrapI16]
  generalize (((min a 4095 : Nat) : Int) * 1650 + 2047).tdiv 4095 = s at hs0 hs1
  split_ifs <;> omega

/-- Monotonicity of the conversion. -/
lemma adc_mono (a b : Nat) (hab : a ≤ b) : adc_to_temp_x10 a ≤ adc_to_temp_x10 b := by
  rw [adc_clamp_eq, adc_clamp_eq]
  have hmin : min a 4095 ≤ min b 4095 := min_le_min hab le_rfl
  have hnum : ((min a 4095 : Nat) : Int) * 1650 + 2047
      ≤ ((min b 4095 : Nat) : Int) * 1650 + 2047 := by
    have : ((min a 4095 : Nat) : Int) ≤ ((min b 4095 : Nat) : Int) := by exact_mod_cast hmin
    nlinarith
  rw [Int.tdiv_eq_ediv (by omega) (by norm_num), Int.tdiv_eq_ediv (by omega) (by norm_num)]
  have := Int.ediv_le_ediv (by norm_num : (0 : Int) < 4095) hnum
  omega

/-- For a temperature strictly inside the hysteresis band, `evaluate`
leaves the machine untouched. -/
lemma evaluate_between (m : StateMachine) (t : Int)
    (h1 : m.low_x10 < t) (h2 : t < m.high_x10) : (m.evaluate t).2 = m := by
  unfold StateMachine.evaluate
  cases hst : m.state <;> simp [hst] <;> omega

/-- C3: a fresh machine is Safe; `evaluate` returns the post-transition
state; from Safe it trips to Unsafe iff the temperature reaches the high
threshold (inclusive), otherwise stays Safe; from Unsafe it recovers to
Safe iff the temperature reaches the low threshold (inclusive), otherwise
stays Unsafe. -/
theorem stateMachine_transitions (hi lo t : Int) (m : StateMachine) :
    (StateMachine.new hi lo).state = State.Safe ∧
    (m.evaluate t).1 = ((m.evaluate t).2).state ∧
    (m.state = State.Safe → (((m.evaluate t).2).state = State.Unsafe ↔ m.high_x10 ≤ t)) ∧
    (m.state = State.Safe → (((m.evaluate t).2).state = State.Safe ↔ t < m.high_x10)) ∧
    (m.state = State.Unsafe → (((m.evaluate t).2).state = State.Safe ↔ t ≤ m.low_x10)) ∧
    (m.state = State.Unsafe → (((m.evaluate t).2).state = State.Unsafe ↔ m.low_x10 < t)) := by
  refine ⟨rfl, rfl, ?_, ?_, ?_, ?_⟩ <;>
    · intro hst
      simp only [StateMachine.evaluate, hst]
      split_ifs with h <;> simp_all

/-- Witness for C3: with thresholds (1000, 950), evaluating 1000 from Safe
trips to Unsafe. -/
theorem stateMachine_transitions_witness :
    ((StateMachine.new 1000 950).evaluate 1000).2.state = State.Unsafe :=
  ((stateMachine_transitions 1000 950 1000 (StateMachine.new 1000 950)).2.2.1 rfl).mpr
    (by decide)

/-- C6: any number of `evaluate` calls with a temperature strictly between
the two thresholds never changes the state. -/
theorem hysteresis_idempotent (m : StateMachine) (t : Int) (n : Nat)
    (h1 : m.low_x10 < t) (h2 : t < m.high_x10) :
    (evalN m t n).state = m.state := by
  induction n generalizing m with
  | zero => rfl
  | succ k ih =>
      show (evalN ((m.evaluate t).2) t k).state = m.state
      rw [evaluate_between m t h1 h2]
      exact ih m h1 h2

/-- Witness for C6: three calls at 975 strictly between (950, 1000) keep a
Safe machine Safe. -/
theorem hysteresis_idempotent_witness :
    (evalN (StateMachine.new 1000 950) 975 3).state = (StateMachine.new 1000 950).state :=
  hysteresis_idempotent (StateMachine.new 1000 950) 975 3 (by decide) (by decide)

/-- C4: the conversion clamps its input to 4095, computes
-400 + (input * 1650 + 2047) / 4095 with round-half-up, clamps the result
to [-400, 1250]; hence any input above 4095 converts like 4095. -/
theorem conversion_formula (a : Nat) :
    adc_to_temp_x10 a
      = max (-400) (min 1250 (-400 + (((min a 4095 : Nat) : Int) * 1650 + 2047).tdiv 4095)) ∧
    (4095 < a → adc_to_temp_x10 a = adc_to_temp_x10 4095) := by
  refine ⟨adc_clamp_eq a, fun hgt => ?_⟩
  rw [adc_clamp_eq a, adc_clamp_eq 4095]
  have h45 : min a 4095 = 4095 := by omega
  rw [h45]
  norm_num

/-- Witness for C4: 5000 converts like 4095. -/
theorem conversion_formula_witness : adc_to_temp_x10 5000 = adc_to_temp_x10 4095 :=
  (conversion_formula 5000).2 (by norm_num)

/-- C8: conversion boundary values and monotonicity: convert(0) = -400,
convert(4095) = 1250, convert(2048) within ±10 of 425, and the conversion
is monotone non-decreasing on the whole input domain. -/
theorem conversion_boundary :
    adc_to_temp_x10 0 = -400 ∧
    adc_to_temp_x10 4095 = 1250 ∧
    (425 - 10 ≤ adc_to_temp_x10 2048 ∧ adc_to_temp_x10 2048 ≤ 425 + 10) ∧
    (∀ a b : Nat, a ≤ b → adc_to_temp_x10 a ≤ adc_to_temp_x10 b) := by
  refine ⟨by decide, by decide, ⟨by decide, by decide⟩, fun a b hab => adc_mono a b hab⟩

/-- Witness for C8: monotonicity instantiated at 100 ≤ 200. -/
theorem conversion_boundary_witness : adc_to_temp_x10 100 ≤ adc_to_temp_x10 200 :=
  conversion_boundary.2.2.2 100 200 (by norm_num)

/-- Position in the input list of the most recent sample stored in slot
`j` after `n` insertions (meaningful when `j < n`). -/
def lastIdx (n j : Nat) : Nat := n - 1 - ((n - 1 - j) % 5)

/-- Contents of window slot `j` after the sample list `P` has been fed:
the most recent sample whose insertion position hit slot `j`, or the
initial 0 if the slot was never written. -/
def lastWin (P : List Int) (j : Nat) : Int :=
  if j < P.length then P.getD (lastIdx P.length j) 0 else 0

/-- Characterization of the filter state reached by feeding `P` into a
fresh filter: saturating count, cyclic write index, window contents, and
the running sum equal to the sum of the (at most 5) most recent samples. -/
def FilterInv (P : List Int) (f : Filter) : Prop :=
  f.count = min P.length 5 ∧
  f.index = P.length % 5 ∧
  (∀ j : Fin 5, f.window j = lastWin P j.val) ∧
  f.sum = (P.drop (P.length - 5)).sum

/-- The output of the `update` call that receives sample `s` when the
samples `P` have already been accepted. -/
def expectedOut (P : List Int) (s : Int) : Option Int :=
  if 5 ≤ P.length then
    some (wrapI16 ((((P ++ [s]).drop (P.length - 4)).sum).tdiv 5))
  else none

/-- Expected outputs of feeding `L` after the filter already absorbed `P`. -/
def specOuts (P : List Int) : List Int → List (Option Int)
  | [] => []
  | s :: rest => expectedOut P s :: specOuts (P ++ [s]) rest

lemma filterInv_new : FilterInv [] Filter.new := by
  refine ⟨rfl, rfl, fun j => ?_, rfl⟩
  simp [lastWin, Filter.new]

lemma getD_concat_self (P : List Int) (s : Int) : (P ++ [s]).getD P.length 0 = s := by
  simp [List.getD_eq_getElem?_getD, List.getElem?_concat_length]

lemma getD_concat_lt (P : List Int) (s : Int) (n : Nat) (h : n < P.length) :
    (P ++ [s]).getD n 0 = P.getD n 0 :=
  List.getD_append _ _ _ _ h

lemma lastWin_concat_idx (P : List Int) (s : Int) :
    lastWin (P ++ [s]) (P.length % 5) = s := by
  have hlt : P.length % 5 < P.length + 1 := by omega
  have hidx : lastIdx (P.length + 1) (P.length % 5) = P.length := by
    unfold lastIdx
    omega
  simp only [lastWin, List.length_append, List.length_singleton]
  rw [if_pos hlt, hidx]
  exact getD_concat_self P s

lemma lastWin_concat_ne (P : List Int) (s : Int) (j : Nat) (hj5 : j < 5)
    (hne : j ≠ P.length % 5) :
    lastWin (P ++ [s]) j = lastWin P j := by
  simp only [lastWin, List.length_append, List.length_singleton]
  by_cases hjn : j < P.length
  · have hidx : lastIdx (P.length + 1) j = lastIdx P.length j := by
      unfold lastIdx
      omega
    have hlt : lastIdx P.length j < P.length := by
      unfold lastIdx
      omega
    rw [if_pos (by omega), if_pos hjn, hidx]
    exact getD_concat_lt P s _ hlt
  · have hgt : P.length < j := by omega
    rw [if_neg (by omega), if_neg hjn]

lemma lastWin_oldest (P : List Int) (h5 : 5 ≤ P.length) :
    lastWin P (P.length % 5) = P.getD (P.length - 5) 0 := by
  have hlt : P.length % 5 < P.length := by omega
  have hidx : lastIdx P.length (P.length % 5) = P.length - 5 := by
    unfold lastIdx
    omega
  simp only [lastWin]
  rw [if_pos hlt, hidx]

lemma sum_drop_concat_small (P : List Int) (s : Int) (h : P.length < 5) :
    ((P ++ [s]).drop (P.length + 1 - 5)).sum = (P.drop (P.length - 5)).sum + s := by
  have h1 : P.length + 1 - 5 = 0 := by omega
  have h2 : P.length - 5 = 0 := by omega
  simp [h1, h2]

lemma drop_decomp (P : List Int) (h5 : 5 ≤ P.length) :
    P.drop (P.length - 5) = P.getD (P.length - 5) 0 :: P.drop (P.length - 4) := by
  have h3 : P.length - 5 < P.length := by omega
  rw [List.drop_eq_getElem_cons h3]
  have h4 : P.length - 5 + 1 = P.length - 4 := by omega
  rw [h4]
  congr 1
  rw [List.getD_eq_getElem?_getD, List.getElem?_eq_getElem h3]
  rfl

lemma sum_drop_concat_big (P : List Int) (s : Int) (h5 : 5 ≤ P.length) :
    ((P ++ [s]).drop (P.length + 1 - 5)).sum
      = (P.drop (P.length - 5)).sum - P.getD (P.length - 5) 0 + s := by
  have h1 : P.length + 1 - 5 = P.length - 4 := by omega
  have h2 : P.length - 4 ≤ P.length := by omega
  rw [h1, List.drop_append_of_le_length h2, List.sum_append, drop_decomp P h5]
  simp only [List.sum_cons, List.sum_nil, List.sum_singleton]
  ring

lemma update_spec (P : List Int) (f : Filter) (s : Int) (h : FilterInv P f) :
    ∃ f', f.update s = some (expectedOut P s, f') ∧ FilterInv (P ++ [s]) f' := by
  obtain ⟨hc, hi, hw, hs⟩ := h
  have hidx : f.index < 5 := by omega
  have hfi : f.index = P.length % 5 := hi
  by_cases h5 : P.length < 5
  · have hcount : f.count < 5 := by omega
    refine ⟨{ window := Function.update f.window ⟨f.index, hidx⟩ s,
              count := f.count + 1,
              index := (f.index + 1) % 5,
              sum := f.sum + s }, ?_, ?_, ?_, ?_, ?_⟩
    · unfold Filter.update
      rw [dif_pos hidx, if_pos hcount]
      have hno : expectedOut P s = none := by
        unfold expectedOut
        rw [if_neg (by omega)]
      rw [hno]
    · simp only [List.length_append, List.length_singleton]
      omega
    · simp only [List.length_append, List.length_singleton]
      omega
    · intro j
      dsimp only
      by_cases hj : j = (⟨f.index, hidx⟩ : Fin 5)
      · subst hj
        rw [Function.update_same]
        simp only [Fin.val_mk, hfi]
        exact (lastWin_concat_idx P s).symm
      · rw [Function.update_noteq hj]
        rw [hw j]
        have hne : j.val ≠ P.length % 5 := by
          intro hb
          apply hj
          apply Fin.ext
          simp [hb, hfi]
        exact (lastWin_concat_ne P s j.val j.isLt hne).symm
    · dsimp only
      simp only [List.length_append, List.length_singleton]
      rw [sum_drop_concat_small P s h5, hs]
  · have hcount : ¬ f.count < 5 := by omega
    have h5' : 5 ≤ P.length := by omega
    have hold : f.window ⟨f.index, hidx⟩ = P.getD (P.length - 5) 0 := by
      calc f.window ⟨f.index, hidx⟩ = lastWin P f.index := hw _
        _ = lastWin P (P.length % 5) := by rw [hfi]
        _ = P.getD (P.length - 5) 0 := lastWin_oldest P h5'
    have hsum : f.sum - f.window ⟨f.index, hidx⟩ + s = ((P ++ [s]).drop (P.length - 4)).sum := by
      have hbig := sum_drop_concat_big P s h5'
      have h1 : P.length + 1 - 5 = P.length - 4 := by omega
      rw [h1] at hbig
      rw [hbig, hs, hold]
    refine ⟨{ window := Function.update f.window ⟨f.index, hidx⟩ s,
              count := f.count,
              index := (f.index + 1) % 5,
              sum := f.sum - f.window ⟨f.index, hidx⟩ + s }, ?_, ?_, ?_, ?_, ?_⟩
    · unfold Filter.update
      rw [dif_pos hidx, if_neg hcount]
      have hyes : expectedOut P s
          = some (wrapI16 ((f.sum - f.window ⟨f.index, hidx⟩ + s).tdiv 5)) := by
        unfold expectedOut
        rw [if_pos h5', hsum]
      rw [hyes]
    · simp only [List.length_append, List.length_singleton]
      omega
    · simp only [List.length_append, List.length_singleton]
      omega
    · intro j
      dsimp only
      by_cases hj : j = (⟨f.index, hidx⟩ : Fin 5)
      · subst hj
        rw [Function.update_same]
        simp only [Fin.val_mk, hfi]
        exact (lastWin_concat_idx P s).symm
      · rw [Function.update_noteq hj]
        rw [hw j]
        have hne : j.val ≠ P.length % 5 := by
          intro hb
          apply hj
          apply Fin.ext
          simp [hb, hfi]
        exact (lastWin_concat_ne P s j.val j.isLt hne).symm
    · dsimp only
      simp only [List.length_append, List.length_singleton]
      have h1 : P.length + 1 - 5 = P.length - 4 := by omega
      rw [h1, ← hsum]

lemma feed_spec (L P : List Int) (f : Filter) (h : FilterInv P f) :
    ∃ f', f.feed L = some (f', specOuts P L) ∧ FilterInv (P ++ L) f' := by
  induction L generalizing P f with
  | nil => exact ⟨f, rfl, by simpa using h⟩
  | cons s rest ih =>
      obtain ⟨f1, hup, hinv1⟩ := update_spec P f s h
      obtain ⟨f2, hfeed, hinv2⟩ := ih (P ++ [s]) f1 hinv1
      refine ⟨f2, ?_, ?_⟩
      · simp only [Filter.feed, hup, hfeed, specOuts]
      · have hassoc : P ++ [s] ++ rest = P ++ (s :: rest) := by simp
        rw [← hassoc]
        exact hinv2

lemma feed_new (L : List Int) :
    ∃ f', Filter.new.feed L = some (f', specOuts [] L) ∧ FilterInv L f' := by
  have h := feed_spec L [] Filter.new filterInv_new
  simpa using h

lemma sum_bounds (l : List Int) (lo hi : Int) (h : ∀ x ∈ l, lo ≤ x ∧ x ≤ hi) :
    lo * (l.length : Int) ≤ l.sum ∧ l.sum ≤ hi * (l.length : Int) := by
  induction l with
  | nil => simp
  | cons x xs ih =>
      have hx := h x (List.mem_cons_self x xs)
      have hxs := ih (fun y hy => h y (List.mem_cons_of_mem x hy))
      simp only [List.sum_cons, List.length_cons]
      push_cast
      constructor <;> nlinarith [hx.1, hx.2, hxs.1, hxs.2]

lemma tdiv5_range (s : Int) (h1 : -163840 ≤ s) (h2 : s ≤ 163835) :
    -32768 ≤ s.tdiv 5 ∧ s.tdiv 5 ≤ 32767 := by
  rcases le_or_lt 0 s with hp | hn
  · rw [Int.tdiv_eq_ediv hp (by norm_num)]
    omega
  · have h := Int.neg_tdiv s 5
    rw [Int.tdiv_eq_ediv (by omega) (by norm_num)] at h
    omega

lemma tdiv5_range_band (s : Int) (h1 : 2250 ≤ s) (h2 : s ≤ 3000) :
    450 ≤ s.tdiv 5 ∧ s.tdiv 5 ≤ 600 := by
  rw [Int.tdiv_eq_ediv (by omega) (by norm_num)]
  omega

lemma specOuts_length (P L : List Int) : (specOuts P L).length = L.length := by
  induction L generalizing P with
  | nil => rfl
  | cons s rest ih => simp [specOuts, ih]

lemma specOuts_getD (P L : List Int) (i : Nat) (hiL : i < L.length) :
    (specOuts P L).getD i none = expectedOut (P ++ L.take i) (L.getD i 0) := by
  induction L generalizing P i with
  | nil => simp at hiL
  | cons s rest ih =>
      cases i with
      | zero => simp [specOuts]
      | succ k =>
          rw [specOuts, List.getD_cons_succ, List.getD_cons_succ]
          rw [ih (P ++ [s]) k (by simpa using hiL)]
          congr 1
          simp [List.take_succ_cons]

lemma getD_eq_getElem_int (P : List Int) (i : Nat) (h : i < P.length) :
    P.getD i 0 = P[i] := by
  rw [List.getD_eq_getElem?_getD, List.getElem?_eq_getElem h]
  rfl

lemma take_concat_getD (P : List Int) (i : Nat) (h : i < P.length) :
    P.take i ++ [P.getD i 0] = P.take (i + 1) := by
  rw [List.take_succ, getD_eq_getElem_int P i h, List.getElem?_eq_getElem h]
  rfl

lemma expectedOut_no_wrap (P : List Int) (s : Int)
    (h : ∀ x ∈ P ++ [s], -32768 ≤ x ∧ x ≤ 32767) (h5 : 5 ≤ P.length) :
    expectedOut P s = some ((((P ++ [s]).drop (P.length - 4)).sum).tdiv 5) := by
  unfold expectedOut
  rw [if_pos h5]
  have hsub : ∀ x ∈ (P ++ [s]).drop (P.length - 4), -32768 ≤ x ∧ x ≤ 32767 :=
    fun x hx => h x (List.drop_subset _ _ hx)
  have hlen : ((P ++ [s]).drop (P.length - 4)).length = 5 := by
    simp only [List.length_drop, List.length_append, List.length_singleton]
    omega
  have hsum := sum_bounds ((P ++ [s]).drop (P.length - 4)) (-32768) 32767 hsub
  rw [hlen] at hsum
  norm_num at hsum
  have hr := tdiv5_range _ hsum.1 hsum.2
  rw [wrapI16_eq_self _ hr.1 hr.2]

lemma specOuts_band (P L : List Int)
    (h : ∀ x ∈ P ++ L, 450 ≤ x ∧ x ≤ 600) :
    ∀ o ∈ specOuts P L, ∀ v, o = some v → 450 ≤ v ∧ v ≤ 600 := by
  induction L generalizing P with
  | nil =>
      intro o ho
      simp [specOuts] at ho
  | cons s rest ih =>
      intro o ho v hov
      rw [specOuts, List.mem_cons] at ho
      rcases ho with ho | ho
      · subst ho
        by_cases h5 : 5 ≤ P.length
        · unfold expectedOut at hov
          rw [if_pos h5] at hov
          have hv : v = wrapI16 ((((P ++ [s]).drop (P.length - 4)).sum).tdiv 5) :=
            (Option.some.injEq _ _ ▸ hov).symm
          have hsub : ∀ x ∈ (P ++ [s]).drop (P.length - 4), 450 ≤ x ∧ x ≤ 600 := by
            intro x hx
            have hx2 := List.drop_subset _ _ hx
            rcases List.mem_append.mp hx2 with hx3 | hx3
            · exact h x (List.mem_append.mpr (Or.inl hx3))
            · have hxs : x = s := by simpa using hx3
              subst hxs
              exact h x (List.mem_append.mpr (Or.inr (List.mem_cons_self _ _)))
          have hlen : ((P ++ [s]).drop (P.length - 4)).length = 5 := by
            simp only [List.length_drop, List.length_append, List.length_singleton]
            omega
          have hsum := sum_bounds ((P ++ [s]).drop (P.length - 4)) 450 600 hsub
          rw [hlen] at hsum
          norm_num at hsum
          have hr := tdiv5_range_band _ hsum.1 hsum.2
          have hid := wrapI16_eq_self ((((P ++ [s]).drop (P.length - 4)).sum).tdiv 5)
            (by omega) (by omega)
          rw [hv, hid]
          exact hr
        · unfold expectedOut at hov
          rw [if_neg h5] at hov
          exact absurd hov (by simp)
      · refine ih (P ++ [s]) ?_ o ho v hov
        intro x hx
        apply h
        simpa using hx

lemma pipeline_eq_runSM (ts : List Int) (f : Filter) (m : StateMachine)
    (f' : Filter) (outs : List (Option Int)) (h : f.feed ts = some (f', outs)) :
    pipeline m f ts = some (runSM m (outs.filterMap id)) := by
  induction ts generalizing f m f' outs with
  | nil =>
      rw [Filter.feed] at h
      simp only [Option.some.injEq, Prod.mk.injEq] at h
      obtain ⟨h1, h2⟩ := h
      subst h2
      simp [pipeline, runSM]
  | cons t rest ih =>
      rw [Filter.feed] at h
      cases hup : f.update t with
      | none =>
          rw [hup] at h
          exact absurd h (by simp)
      | some p =>
          obtain ⟨out, f1⟩ := p
          rw [hup] at h
          dsimp only at h
          cases hfd : Filter.feed f1 rest with
          | none =>
              rw [hfd] at h
              exact absurd h (by simp)
          | some q =>
              obtain ⟨f2, outs1⟩ := q
              rw [hfd] at h
              simp only [Option.some.injEq, Prod.mk.injEq] at h
              obtain ⟨h1, h2⟩ := h
              subst h2
              rw [pipeline, hup]
              cases out with
              | none =>
                  have hfm : List.filterMap id (none :: outs1) = List.filterMap id outs1 := by
                    simp
                  rw [hfm]
                  exact ih f1 m f2 outs1 hfd
              | some v =>
                  have hfm : List.filterMap id (some v :: outs1) = v :: List.filterMap id outs1 := by
                    simp
                  rw [hfm]
                  have hrun : runSM m (v :: List.filterMap id outs1)
                      = runSM ((m.evaluate v).2) (List.filterMap id outs1) := by
                    simp [runSM]
                  rw [hrun]
                  exact ih f1 ((m.evaluate v).2) f2 outs1 hfd

/-- C1 counterexample: on a fresh filter the 5th call to update still
returns no value, refuting the claim that the 5th call returns a value. -/
theorem filter_fifth_call_returns_none :
    ¬ ∃ v : Int, (Filter.new.feed [1, 2, 3, 4, 5]).map Prod.snd
        = some [none, none, none, none, some v] := by
  rintro ⟨v, hv⟩
  rw [show (Filter.new.feed [1, 2, 3, 4, 5]).map Prod.snd
      = some [none, none, none, none, none] from rfl] at hv
  simp at hv

/-- C1 (amended): on a fresh Filter the first 5 calls to update all
return no value; the 6th call returns a value. -/
theorem filter_warmup (a b c d e g : Int) :
    ∃ f v, Filter.new.feed [a, b, c, d, e, g]
      = some (f, [none, none, none, none, none, some v]) := by
  obtain ⟨f, hfeed, _⟩ := feed_new [a, b, c, d, e, g]
  rw [hfeed]
  exact ⟨f, _, rfl⟩

/-- C2 counterexample: the test sequence does not produce, from the 5th
call onward, the truncated averages of the most recent 5 inputs
(520, 516, 500, 508): the 5th call still returns no value. -/
theorem filter_fifth_call_not_average :
    ¬ ((Filter.new.feed [500, 600, 450, 550, 500, 480, 520, 490]).map Prod.snd
        = some [none, none, none, none, some 520, some 516, some 500, some 508]) := by
  decide

/-- C2 (amended): once 5 or more samples have been accepted, the next
update call returns the truncated integer average of the 5 most recent
samples; on the test sequence the averages appear from the 6th call
onward: 516, 500, 508. -/
theorem filter_running_average (P : List Int) (s : Int)
    (hb : ∀ x ∈ P ++ [s], -32768 ≤ x ∧ x ≤ 32767) (h5 : 5 ≤ P.length) :
    (∃ f outs f', Filter.new.feed P = some (f, outs) ∧
        f.update s = some (some ((((P ++ [s]).drop (P.length - 4)).sum).tdiv 5), f')) ∧
    (Filter.new.feed [500, 600, 450, 550, 500, 480, 520, 490]).map Prod.snd
      = some [none, none, none, none, none, some 516, some 500, some 508] := by
  constructor
  · obtain ⟨f, hfeed, hinv⟩ := feed_new P
    obtain ⟨f', hup, _⟩ := update_spec P f s hinv
    rw [expectedOut_no_wrap P s hb h5] at hup
    exact ⟨f, specOuts [] P, f', hfeed, hup⟩
  · rfl

/-- Witness for C2: after the first five samples of the test sequence,
the call with 480 returns the truncated average of the last 5 samples. -/
theorem filter_running_average_witness :
    ∃ f outs f', Filter.new.feed [500, 600, 450, 550, 500] = some (f, outs) ∧
      f.update 480 = some (some ((((([500, 600, 450, 550, 500] : List Int) ++ [480]).drop
        (([500, 600, 450, 550, 500] : List Int).length - 4)).sum).tdiv 5), f') :=
  (filter_running_average [500, 600, 450, 550, 500] 480 (by decide) (by decide)).1

/-- C5: piping any raw ADC sequence through Conversion, Filter and State
Machine (evaluating only when the filter produces an output) ends in the
same machine as feeding the filter outputs into the machine in isolation. -/
theorem pipeline_end_to_end (raw : List Nat) (hi lo : Int) :
    ∃ f outs, Filter.new.feed (raw.map adc_to_temp_x10) = some (f, outs) ∧
      pipeline (StateMachine.new hi lo) Filter.new (raw.map adc_to_temp_x10)
        = some (runSM (StateMachine.new hi lo) (outs.filterMap id)) := by
  obtain ⟨f, hfeed, _⟩ := feed_new (raw.map adc_to_temp_x10)
  exact ⟨f, _, hfeed, pipeline_eq_runSM _ _ _ _ _ hfeed⟩

/-- C7: state invariant of the filter after any accepted sample sequence:
the running sum equals the sum of the (at most 5) most recent samples,
the count saturates at 5, the write index cycles modulo 5, and once the
window is full the slot about to be overwritten holds the oldest resident
sample (so each further insertion evicts the oldest value). -/
theorem filter_invariant (P : List Int) (f : Filter) (outs : List (Option Int))
    (hfeed : Filter.new.feed P = some (f, outs)) :
    f.sum = (P.drop (P.length - 5)).sum ∧
    f.count = min P.length 5 ∧
    f.index = P.length % 5 ∧
    (5 ≤ P.length →
      f.window ⟨P.length % 5, by omega⟩ = P.getD (P.length - 5) 0) := by
  obtain ⟨f0, hfeed0, hinv⟩ := feed_new P
  rw [hfeed0] at hfeed
  simp only [Option.some.injEq, Prod.mk.injEq] at hfeed
  obtain ⟨h1, h2⟩ := hfeed
  subst h1
  obtain ⟨hc, hix, hw, hs⟩ := hinv
  refine ⟨hs, hc, hix, fun h5 => ?_⟩
  rw [hw ⟨P.length % 5, by omega⟩]
  simpa using lastWin_oldest P h5

/-- Witness for C7: the invariant instantiated after feeding six samples. -/
theorem filter_invariant_witness :
    ∃ f outs, Filter.new.feed ([10, 20, 30, 40, 50, 60] : List Int) = some (f, outs) ∧
      f.sum = (([10, 20, 30, 40, 50, 60] : List Int).drop
        (([10, 20, 30, 40, 50, 60] : List Int).length - 5)).sum :=
  ⟨_, _, rfl, (filter_invariant [10, 20, 30, 40, 50, 60] _ _ rfl).1⟩

/-- C9: if every input sample lies in [450, 600], every output the filter
produces lies in [450, 600]. -/
theorem filter_output_band (P : List Int) (hb : ∀ x ∈ P, 450 ≤ x ∧ x ≤ 600) :
    ∃ f outs, Filter.new.feed P = some (f, outs) ∧
      ∀ o ∈ outs, ∀ v, o = some v → 450 ≤ v ∧ v ≤ 600 := by
  obtain ⟨f, hfeed, _⟩ := feed_new P
  exact ⟨f, _, hfeed, specOuts_band [] P (by simpa using hb)⟩

/-- Witness for C9: the band property on the noisy test sequence. -/
theorem filter_output_band_witness :
    ∃ f outs, Filter.new.feed [500, 600, 450, 550, 500, 480, 520, 490] = some (f, outs) ∧
      ∀ o ∈ outs, ∀ v, o = some v → 450 ≤ v ∧ v ≤ 600 :=
  filter_output_band [500, 600, 450, 550, 500, 480, 520, 490] (by decide)

/-- C10: for i16-ranged samples the filter never panics (the write index
stays within [0, 5) so every array access is in bounds), the running sum
stays within [-163840, 163835] (far inside i32), and every produced
output equals sum / 5 exactly, with no wrap in the cast back to i16. -/
theorem filter_safety (P : List Int) (hb : ∀ x ∈ P, -32768 ≤ x ∧ x ≤ 32767) :
    ∃ f outs, Filter.new.feed P = some (f, outs) ∧
      f.index < 5 ∧
      (-163840 ≤ f.sum ∧ f.sum ≤ 163835) ∧
      outs.length = P.length ∧
      (∀ i, 5 ≤ i → i < P.length →
        outs.getD i none = some ((((P.take (i + 1)).drop (i - 4)).sum).tdiv 5)) := by
  obtain ⟨f, hfeed, hinv⟩ := feed_new P
  obtain ⟨hc, hix, hw, hs⟩ := hinv
  refine ⟨f, _, hfeed, by omega, ?_, specOuts_length [] P, ?_⟩
  · have hsub : ∀ x ∈ P.drop (P.length - 5), -32768 ≤ x ∧ x ≤ 32767 :=
      fun x hx => hb x (List.drop_subset _ _ hx)
    have hlen : ((P.drop (P.length - 5)).length : Int) ≤ 5 := by
      simp only [List.length_drop]
      omega
    have hsum := sum_bounds (P.drop (P.length - 5)) (-32768) 32767 hsub
    rw [hs]
    constructor <;> nlinarith [hsum.1, hsum.2, hlen]
  · intro i h5i hiP
    have h1 : (P.take i).length = i := by
      rw [List.length_take]
      omega
    have hb2 : ∀ x ∈ P.take i ++ [P.getD i 0], -32768 ≤ x ∧ x ≤ 32767 := by
      intro x hx
      rcases List.mem_append.mp hx with hx2 | hx2
      · exact hb x (List.take_subset _ _ hx2)
      · have hxg : x = P.getD i 0 := by simpa using hx2
        subst hxg
        rw [getD_eq_getElem_int P i hiP]
        exact hb _ (List.getElem_mem _)
    rw [specOuts_getD [] P i hiP]
    simp only [List.nil_append]
    rw [expectedOut_no_wrap (P.take i) (P.getD i 0) hb2 (by omega)]
    rw [h1, take_concat_getD P i hiP]

/-- Witness for C10: instantiated on the test sequence. -/
theorem filter_safety_witness :
    ∃ f outs, Filter.new.feed [500, 600, 450, 550, 500, 480] = some (f, outs) ∧
      f.index < 5 ∧
      (-163840 ≤ f.sum ∧ f.sum ≤ 163835) ∧
      outs.length = ([500, 600, 450, 550, 500, 480] : List Int).length ∧
      (∀ i, 5 ≤ i → i < ([500, 600, 450, 550, 500, 480] : List Int).length →
        outs.getD i none
          = some (((([500, 600, 450, 550, 500, 480] : List Int).take (i + 1)).drop
              (i - 4)).sum.tdiv 5)) :=
  filter_safety [500, 600, 450, 550, 500, 480] (by decide)

end TSIM
